import Mathlib

/-!
Verification of the QuantumShield ledger core (src/blockchain/block.py and
src/blockchain/blockchain.py) against its specification.

The SHA3-256 hex digest is modelled by an abstract function `H : HashInput → String`.
The Python code always hashes a canonical, field-sorted JSON serialization of either
a raw string, a transaction dictionary, or a block-header dictionary; since that
serialization is injective on those dictionaries, the hash input is modelled as the
structured value itself rather than its JSON text.  Wall-clock timestamps
(`datetime.now().isoformat()`) are threaded in as explicit string arguments.
Python `float` amounts are modelled as `Int`.
-/

set_option autoImplicit false

namespace QuantumShield

/-- Transaction record, as built by `Transaction.__init__` in block.py.
All six fields are exactly the keys of `Transaction.to_dict`. -/
structure Transaction where
  sender : String
  recipient : String
  amount : Int
  timestamp : String
  signature : Option String
  nonce : String
deriving DecidableEq

/-- Fields of the dictionary hashed by `Block.calculate_hash` (block.py):
index, timestamp, transactions, previous_hash, merkle_root, nonce.
The stored proof-of-work hash itself is not part of the hashed data. -/
structure BlockData where
  index : Nat
  timestamp : String
  transactions : List Transaction
  previous_hash : String
  merkle_root : String
  nonce : Nat
deriving DecidableEq

/-- Inputs ever fed to `hashlib.sha3_256` by the ledger core: a raw string
(empty-merkle sentinel, concatenated digest pairs, the nonce-derivation f-string),
a serialized transaction, or a serialized block header. -/
inductive HashInput where
  | str : String → HashInput
  | tx : Transaction → HashInput
  | blk : BlockData → HashInput
deriving DecidableEq

/-- Abstract model of `sha3_256(...).hexdigest()`. -/
abbrev HashFun := HashInput → String

/-- `Transaction.__init__`: the nonce defaults to the digest of
sender + recipient + amount + timestamp when none is supplied. -/
def Transaction.make (H : HashFun) (sender recipient : String) (amount : Int)
    (timestamp : String) (signature : Option String) (nonce : Option String) :
    Transaction :=
  { sender, recipient, amount, timestamp, signature,
    nonce := nonce.getD (H (.str (sender ++ recipient ++ toString amount ++ timestamp))) }

/-- `Transaction.get_hash`. -/
def Transaction.get_hash (H : HashFun) (t : Transaction) : String := H (.tx t)

/-- Block record from block.py; `hash` is `None` until mining sets it. -/
structure Block where
  index : Nat
  transactions : List Transaction
  previous_hash : String
  timestamp : String
  nonce : Nat
  hash : Option String
  merkle_root : String
deriving DecidableEq

/-- Inner for-loop of `_calculate_merkle_root`: combine adjacent digest pairs by
hashing the concatenation of their hex strings.  The single-element fallback case
is unreachable from the call site, which always passes an even-length list. -/
def combinePairs (H : HashFun) : List String → List String
  | a :: b :: rest => H (.str (a ++ b)) :: combinePairs H rest
  | l => l

/-- Odd-length padding step of `_calculate_merkle_root`:
`tx_hashes.append(tx_hashes[-1])`. -/
def padOdd (l : List String) : List String :=
  if l.length % 2 ≠ 0 then l ++ [l.getLastD ""] else l

/-- While-loop of `_calculate_merkle_root`, run with explicit fuel.  The loop
strictly shrinks the list on every iteration, so `l.length` rounds always suffice
(`merkleLoop_eq` below proves the exact while-loop fixpoint equation). -/
def merkleRounds (H : HashFun) : Nat → List String → List String
  | 0, l => l
  | fuel + 1, l =>
    if 1 < l.length then merkleRounds H fuel (combinePairs H (padOdd l)) else l

/-- While-loop of `_calculate_merkle_root` (`while len(tx_hashes) > 1`). -/
def merkleLoop (H : HashFun) (l : List String) : List String :=
  merkleRounds H l.length l

/-- `Block._calculate_merkle_root`. -/
def calculate_merkle_root (H : HashFun) (txs : List Transaction) : String :=
  if txs = [] then H (.str "")
  else (merkleLoop H (txs.map (Transaction.get_hash H))).headD ""

/-- `Block.__init__`: nonce starts at 0, hash unset, Merkle root computed once. -/
def Block.init (H : HashFun) (index : Nat) (transactions : List Transaction)
    (previous_hash : String) (timestamp : String) : Block :=
  { index, transactions, previous_hash, timestamp, nonce := 0, hash := none,
    merkle_root := calculate_merkle_root H transactions }

/-- Data hashed by `Block.calculate_hash`. -/
def Block.hashData (b : Block) : BlockData :=
  { index := b.index, timestamp := b.timestamp, transactions := b.transactions,
    previous_hash := b.previous_hash, merkle_root := b.merkle_root, nonce := b.nonce }

/-- `Block.calculate_hash`. -/
def Block.calculate_hash (H : HashFun) (b : Block) : String := H (.blk b.hashData)

/-- Difficulty test used both by `mine_block` (`self.hash[:difficulty] == target`)
and by `is_chain_valid` (`hash.startswith('0' * difficulty)`); for Python strings
both are equivalent to this prefix comparison. -/
def leadingZeros (d : Nat) (s : String) : Bool :=
  decide (s.data.take d = List.replicate d '0')

/-- Store the freshly computed hash on the block (`self.hash = self.calculate_hash()`). -/
def Block.setHash (H : HashFun) (b : Block) : Block :=
  { b with hash := some (b.calculate_hash H) }

/-- Result relation of `Block.mine_block(difficulty)`.  The Python loop starts at
the block's current nonce, recomputes the hash at each attempt, and exits at the
first nonce whose hash has `d` leading zero hex digits; it does not terminate when
no such nonce exists, hence a relation instead of a total function. -/
def Block.mineSpec (H : HashFun) (d : Nat) (b b' : Block) : Prop :=
  ∃ n, b.nonce ≤ n ∧
    b' = Block.setHash H { b with nonce := n } ∧
    leadingZeros d (Block.calculate_hash H { b with nonce := n }) = true ∧
    ∀ m, b.nonce ≤ m → m < n →
      leadingZeros d (Block.calculate_hash H { b with nonce := m }) = false

/-- Ledger state from blockchain.py.  The wallet registry is modelled by the list
of addresses holding a keypair (only membership is ever read by the core). -/
structure Blockchain where
  chain : List Block
  pending_transactions : List Transaction
  difficulty : Nat
  mining_reward : Int
  wallets : List String
deriving DecidableEq

/-- Default block used only to total out list indexing; every indexed access in
the theorems is guarded by a length bound. -/
def dummyBlock : Block :=
  { index := 0, transactions := [], previous_hash := "", timestamp := "",
    nonce := 0, hash := none, merkle_root := "" }

/-- Default transaction for total list indexing. -/
def dummyTransaction : Transaction :=
  { sender := "", recipient := "", amount := 0, timestamp := "",
    signature := none, nonce := "" }

/-- `Blockchain.get_latest_block` (`self.chain[-1]`; the chain is never empty). -/
def Blockchain.get_latest_block (bc : Blockchain) : Block :=
  bc.chain.getLastD dummyBlock

/-- Genesis transaction from `_create_genesis_block`:
`Transaction("System", "Genesis", 0, nonce="genesis")`. -/
def genesisTransaction (H : HashFun) (ts : String) : Transaction :=
  Transaction.make H "System" "Genesis" 0 ts none (some "genesis")

/-- Genesis block from `_create_genesis_block`: index 0, all-zero previous hash,
fixed timestamp, not yet mined. -/
def genesisBlock (H : HashFun) (ts : String) : Block :=
  Block.init H 0 [genesisTransaction H ts] (String.mk (List.replicate 64 '0'))
    "2025-01-01T00:00:00"

/-- `Blockchain.__init__` after `_create_genesis_block` has appended the mined
genesis block `gb`: mining reward fixed at 10, empty pool and wallet registry. -/
def Blockchain.start (d : Nat) (gb : Block) : Blockchain :=
  { chain := [gb], pending_transactions := [], difficulty := d,
    mining_reward := 10, wallets := [] }

/-- Per-transaction balance update from `get_balance`: credit the recipient,
then debit the sender (both fire when the address is both). -/
def txApply (address : String) (balance : Int) (t : Transaction) : Int :=
  let balance := if t.recipient = address then balance + t.amount else balance
  if t.sender = address then balance - t.amount else balance

/-- `Blockchain.get_balance`: replay every chained block, then the pending pool. -/
def Blockchain.get_balance (bc : Blockchain) (address : String) : Int :=
  let fromChain :=
    bc.chain.foldl (fun acc blk => blk.transactions.foldl (txApply address) acc) 0
  bc.pending_transactions.foldl (txApply address) fromChain

/-- `Blockchain.add_transaction(sender, recipient, amount)`.  Returns the Python
boolean result together with the updated state; on the insufficient-balance path
the state is returned untouched.  `sign` models `PQCSignature.sign`, applied when
the sender owns a registered keypair. -/
def Blockchain.add_transaction (H : HashFun) (sign : String → String) (ts : String)
    (bc : Blockchain) (sender recipient : String) (amount : Int) :
    Bool × Blockchain :=
  if sender ≠ "System" ∧ bc.get_balance sender < amount then (false, bc)
  else
    let t := Transaction.make H sender recipient amount ts none none
    let t :=
      if sender ∈ bc.wallets then
        { t with signature := some (sign (sender ++ recipient ++ toString amount)) }
      else t
    (true, { bc with pending_transactions := bc.pending_transactions ++ [t] })

/-- Reward transaction from `mine_pending_transactions`:
`Transaction("System", miner_address, self.mining_reward, nonce="reward")`. -/
def rewardTransaction (H : HashFun) (miner : String) (reward : Int) (ts : String) :
    Transaction :=
  Transaction.make H "System" miner reward ts none (some "reward")

/-- Block assembled by `mine_pending_transactions` before mining:
`Block(len(self.chain), self.pending_transactions, self.get_latest_block().hash)`. -/
def Blockchain.assembleBlock (H : HashFun) (ts : String) (bc : Blockchain) : Block :=
  Block.init H bc.chain.length bc.pending_transactions
    (bc.get_latest_block.hash.getD "") ts

/-- `Blockchain.mine_pending_transactions(miner_address)`.  The argument `b`
stands for the output of the `block.mine_block(self.difficulty)` call; every use
in the theorems constrains it by `Block.mineSpec` on the assembled block, since
the mining loop itself need not terminate. -/
def Blockchain.mine_pending_transactions (H : HashFun) (bc : Blockchain)
    (miner : String) (rts : String) (b : Block) : Option Block × Blockchain :=
  if bc.pending_transactions = [] then (none, bc)
  else
    (some b,
      { bc with chain := bc.chain ++ [b],
                pending_transactions := [rewardTransaction H miner bc.mining_reward rts] })

/-- Per-pair validity test of `is_chain_valid`: recomputed hash matches the stored
hash, the stored previous-hash links to the previous block's stored hash, and the
stored hash meets the difficulty target. -/
def checkBlock (H : HashFun) (d : Nat) (prev cur : Block) : Bool :=
  decide (cur.hash = some (cur.calculate_hash H)) &&
  decide (some cur.previous_hash = prev.hash) &&
  leadingZeros d (cur.hash.getD "")

/-- Loop of `is_chain_valid` over adjacent block pairs, starting at index 1. -/
def validFrom (H : HashFun) (d : Nat) : Block → List Block → Bool
  | _, [] => true
  | prev, cur :: rest => checkBlock H d prev cur && validFrom H d cur rest

/-- `Blockchain.is_chain_valid`. -/
def Blockchain.is_chain_valid (H : HashFun) (bc : Blockchain) : Bool :=
  match bc.chain with
  | [] => true
  | b :: rest => validFrom H bc.difficulty b rest

/-- One observable API call on a ledger state: `add_transaction`, or
`mine_pending_transactions` on an empty pool (a no-op returning `None`), or a
successful `mine_pending_transactions` whose mining loop exited. -/
inductive Step (H : HashFun) (sign : String → String) : Blockchain → Blockchain → Prop
  | submit (bc : Blockchain) (ts sender recipient : String) (amount : Int) :
      Step H sign bc (bc.add_transaction H sign ts sender recipient amount).2
  | mineEmpty (bc : Blockchain) (miner rts : String) (b : Block) :
      bc.pending_transactions = [] →
      Step H sign bc (bc.mine_pending_transactions H miner rts b).2
  | mine (bc : Blockchain) (miner bts rts : String) (b : Block) :
      bc.pending_transactions ≠ [] →
      Block.mineSpec H bc.difficulty (bc.assembleBlock H bts) b →
      Step H sign bc (bc.mine_pending_transactions H miner rts b).2

/-- Ledger states produced by constructing a fresh ledger (genesis block mined at
the configured difficulty) and applying any finite sequence of API calls. -/
inductive Reachable (H : HashFun) (sign : String → String) : Blockchain → Prop
  | genesis (d : Nat) (gts : String) (gb : Block) :
      Block.mineSpec H d (genesisBlock H gts) gb →
      Reachable H sign (Blockchain.start d gb)
  | step (bc bc' : Blockchain) :
      Reachable H sign bc → Step H sign bc bc' → Reachable H sign bc'

/-- Concatenation of every transaction of every chained block followed by the
pending pool, in chain-then-pool order (the fold domain named by the spec's
`getBalance` contract). -/
def Blockchain.allTransactions (bc : Blockchain) : List Transaction :=
  (bc.chain.map Block.transactions).flatten ++ bc.pending_transactions

/-- Balance update written from the spec's words: starting from the running
total, add the amount when the address is the recipient and subtract it when the
address is the sender, both applying when it is both. -/
def specDelta (address : String) (balance : Int) (t : Transaction) : Int :=
  balance + (if t.recipient = address then t.amount else 0)
          - (if t.sender = address then t.amount else 0)

/-- Modelled from the spec: one pairwise-reduction level of
`MerkleCommitter.computeRoot` — pair adjacent hashes left to right, duplicating
the last hash when the count is odd, each pair combined by hashing the
concatenation of the two hex strings. -/
def specCombineLevel (H : HashFun) : List String → List String
  | [] => []
  | [h] => [H (.str (h ++ h))]
  | a :: b :: rest => H (.str (a ++ b)) :: specCombineLevel H rest

/-- Modelled from the spec: the `while more than one hash remains` reduction of
`MerkleCommitter.computeRoot`, with the same fuel convention as `merkleRounds`. -/
def specRounds (H : HashFun) : Nat → List String → List String
  | 0, l => l
  | fuel + 1, l =>
    if 1 < l.length then specRounds H fuel (specCombineLevel H l) else l

/-- Modelled from the spec: `MerkleCommitter.computeRoot` — the hash of the empty
byte string on an empty batch, the transaction's own content hash on a singleton
batch, otherwise the pairwise reduction down to a single remaining hash. -/
def computeRootSpec (H : HashFun) (txs : List Transaction) : String :=
  match txs with
  | [] => H (.str "")
  | [t] => t.get_hash H
  | ts => (specRounds H ts.length (ts.map (Transaction.get_hash H))).headD ""

/-- Out-of-API tampering: overwrite the amount of transaction `j` of block `i`
in place, leaving every stored hash, Merkle root and the rest of the state as it
was (the mutation performed by the spec's tamper test). -/
def Blockchain.tamperAmount (bc : Blockchain) (i j : Nat) (a : Int) : Blockchain :=
  let blk := bc.chain.getD i dummyBlock
  let t := blk.transactions.getD j dummyTransaction
  { bc with
    chain := bc.chain.set i
      { blk with transactions := blk.transactions.set j { t with amount := a } } }

/-- Successful `mine_pending_transactions` call: nonempty pool, mining loop
exited on the assembled block. -/
def MineCall (H : HashFun) (bc bc' : Blockchain) : Prop :=
  ∃ miner bts rts b, bc.pending_transactions ≠ [] ∧
    Block.mineSpec H bc.difficulty (bc.assembleBlock H bts) b ∧
    bc' = (bc.mine_pending_transactions H miner rts b).2

/-- Two distinct positions of the ledger's transaction sequence carry the same
nonce. -/
def DupNonce (bc : Blockchain) : Prop :=
  ∃ i j, i < j ∧ j < bc.allTransactions.length ∧
    (bc.allTransactions.getD i dummyTransaction).nonce =
    (bc.allTransactions.getD j dummyTransaction).nonce

/-! Concrete fixtures used by the closed witness and counterexample theorems.
`trivialHash` collapses every digest to the empty string, which is enough for
any property that does not rely on hash injectivity (difficulty 0 ledgers). -/

/-- Hash model mapping every input to the empty digest. -/
def trivialHash : HashFun := fun _ => ""

/-- Signer model mapping every message to an empty signature. -/
def trivialSign : String → String := fun _ => ""

/-- Mined genesis block of the difficulty-0 fixture ledger. -/
def gZ : Block := Block.setHash trivialHash (genesisBlock trivialHash "t0")

/-- Freshly constructed difficulty-0 ledger. -/
def bcZ : Blockchain := Blockchain.start 0 gZ

/-- Fixture transaction sitting in a pending pool. -/
def txA : Transaction := Transaction.make trivialHash "a" "b" 0 "t1" none (some "x")

/-- Fixture ledger with one pending transaction. -/
def bcP : Blockchain := { bcZ with pending_transactions := [txA] }

/-- Mined form of the block assembled from `bcP`'s pool (difficulty 0 mines at
nonce 0 immediately). -/
def bM1 : Block := Block.setHash trivialHash (bcP.assembleBlock trivialHash "t2")

/-- Ledger after one successful mine call on `bcP`. -/
def bcM1 : Blockchain := (bcP.mine_pending_transactions trivialHash "miner" "t3" bM1).2

/-- Mined form of the block assembled from `bcM1`'s pool. -/
def bM2 : Block := Block.setHash trivialHash (bcM1.assembleBlock trivialHash "t4")

/-- Ledger after a second successful mine call. -/
def bcM2 : Blockchain := (bcM1.mine_pending_transactions trivialHash "miner" "t5" bM2).2

/-! An injective hash model, for witnesses of collision-freeness-conditioned
theorems: inputs are coded injectively into `Nat` through `Encodable`, and the
code is rendered as a string of that many repeated characters. -/

/-- Injective code of a string. -/
def strNat (s : String) : Nat := Encodable.encode (s.data.map Char.toNat)

/-- Injective code of a transaction. -/
def txNat (t : Transaction) : Nat :=
  Encodable.encode (strNat t.sender, strNat t.recipient, t.amount,
    strNat t.timestamp, t.signature.map strNat, strNat t.nonce)

/-- Injective code of a block header. -/
def blkNat (bd : BlockData) : Nat :=
  Encodable.encode (bd.index, strNat bd.timestamp, bd.transactions.map txNat,
    strNat bd.previous_hash, strNat bd.merkle_root, bd.nonce)

/-- Injective code of a hash input, tagged by constructor. -/
def hashCode : HashInput → Nat ⊕ (Nat ⊕ Nat)
  | .str s => Sum.inl (strNat s)
  | .tx t => Sum.inr (Sum.inl (txNat t))
  | .blk bd => Sum.inr (Sum.inr (blkNat bd))

/-- Injective (collision-free) hash model. -/
def injHash : HashFun :=
  fun x => String.mk (List.replicate (Encodable.encode (hashCode x)) 'a')

/-- Fixture transaction inside the mined fixture blocks below. -/
def txW : Transaction :=
  { sender := "s", recipient := "r", amount := 0, timestamp := "t",
    signature := none, nonce := "n" }

/-- Fixture genesis block (never checked by `is_chain_valid`). -/
def bW0 : Block :=
  { index := 0, transactions := [txW], previous_hash := "p", timestamp := "t",
    nonce := 0, hash := some "h0", merkle_root := "m" }

/-- Fixture mined second block, whose stored hash is its recomputed hash. -/
def bW1 : Block :=
  Block.setHash injHash
    { index := 1, transactions := [txW], previous_hash := "h0", timestamp := "u",
      nonce := 0, hash := none, merkle_root := "m" }

/-- Fixture two-block valid chain under the injective hash model, difficulty 0. -/
def bcW : Blockchain :=
  { chain := [bW0, bW1], pending_transactions := [], difficulty := 0,
    mining_reward := 10, wallets := [] }

/-! Basic lemmas. -/

theorem leadingZeros_zero (s : String) : leadingZeros 0 s = true := by
  simp [leadingZeros]

theorem calculate_hash_setHash (H : HashFun) (b : Block) :
    (Block.setHash H b).calculate_hash H = b.calculate_hash H := rfl

theorem mineSpec_zero (H : HashFun) (b : Block) :
    Block.mineSpec H 0 b (Block.setHash H b) := by
  refine ⟨b.nonce, le_refl _, rfl, leadingZeros_zero _, ?_⟩
  intro m h1 h2
  omega

/-! Merkle-loop machinery: the fuel-based loop satisfies the exact while-loop
fixpoint equation, and agrees level by level with the spec's reduction. -/

theorem combinePairs_length (H : HashFun) : ∀ l : List String,
    (combinePairs H l).length = (l.length + 1) / 2
  | [] => rfl
  | [_] => by simp [combinePairs]
  | a :: b :: rest => by
    simp only [combinePairs, List.length_cons, combinePairs_length H rest]
    omega

theorem combinePairs_padOdd_length (H : HashFun) (l : List String)
    (h : 1 < l.length) : (combinePairs H (padOdd l)).length < l.length := by
  rw [combinePairs_length]
  unfold padOdd
  split
  · simp only [List.length_append, List.length_cons, List.length_nil]
    omega
  · omega

theorem merkleRounds_congr (H : HashFun) : ∀ f₁ f₂ (l : List String),
    l.length ≤ f₁ → l.length ≤ f₂ → merkleRounds H f₁ l = merkleRounds H f₂ l := by
  intro f₁
  induction f₁ with
  | zero =>
    intro f₂ l h1 _
    have hl : l = [] := List.eq_nil_of_length_eq_zero (Nat.le_zero.mp h1)
    subst hl
    cases f₂ <;> simp [merkleRounds]
  | succ f ih =>
    intro f₂ l h1 h2
    cases f₂ with
    | zero =>
      have hl : l = [] := List.eq_nil_of_length_eq_zero (Nat.le_zero.mp h2)
      subst hl
      simp [merkleRounds]
    | succ f' =>
      by_cases hlt : 1 < l.length
      · simp only [merkleRounds, if_pos hlt]
        have hdec := combinePairs_padOdd_length H l hlt
        exact ih f' _ (by omega) (by omega)
      · simp only [merkleRounds, if_neg hlt]

theorem merkleLoop_eq (H : HashFun) (l : List String) :
    merkleLoop H l =
      if 1 < l.length then merkleLoop H (combinePairs H (padOdd l)) else l := by
  by_cases h : 1 < l.length
  · rw [if_pos h]
    obtain ⟨f, hf⟩ : ∃ f, l.length = f + 1 := ⟨l.length - 1, by omega⟩
    unfold merkleLoop
    rw [hf]
    simp only [merkleRounds, if_pos h]
    have hdec := combinePairs_padOdd_length H l h
    exact merkleRounds_congr H f _ _ (by omega) le_rfl
  · rw [if_neg h]
    rcases l with _ | ⟨a, _ | ⟨b, rest⟩⟩
    · rfl
    · rfl
    · exact absurd (by simp) h

theorem getLastD_irrel {α : Type} : ∀ (l : List α) (x y : α), l ≠ [] →
    l.getLastD x = l.getLastD y
  | [_], _, _, _ => rfl
  | _ :: b :: t, x, y, _ => by
    simp only [List.getLastD_cons]

theorem padOdd_cons_cons (a b : String) (rest : List String) :
    padOdd (a :: b :: rest) = a :: b :: padOdd rest := by
  rcases eq_or_ne rest [] with rfl | hne
  · simp [padOdd]
  · have hlast : (a :: b :: rest).getLastD "" = rest.getLastD "" := by
      rw [List.getLastD_cons, List.getLastD_cons]
      exact getLastD_irrel rest b "" hne
    have hlen : (a :: b :: rest).length % 2 = rest.length % 2 := by
      simp only [List.length_cons]
      omega
    unfold padOdd
    rw [hlen, hlast]
    by_cases hpar : rest.length % 2 ≠ 0
    · rw [if_pos hpar, if_pos hpar]
      simp
    · rw [if_neg hpar, if_neg hpar]

theorem combinePairs_padOdd_eq_spec (H : HashFun) : ∀ l : List String,
    combinePairs H (padOdd l) = specCombineLevel H l
  | [] => rfl
  | [a] => by simp [padOdd, combinePairs, specCombineLevel]
  | a :: b :: rest => by
    rw [padOdd_cons_cons]
    simp only [combinePairs, specCombineLevel]
    rw [combinePairs_padOdd_eq_spec H rest]

theorem merkleRounds_eq_specRounds (H : HashFun) : ∀ fuel (l : List String),
    merkleRounds H fuel l = specRounds H fuel l := by
  intro fuel
  induction fuel with
  | zero => intro l; rfl
  | succ f ih =>
    intro l
    simp only [merkleRounds, specRounds]
    by_cases h : 1 < l.length
    · rw [if_pos h, if_pos h, combinePairs_padOdd_eq_spec, ih]
    · rw [if_neg h, if_neg h]

/-- C5: the code's Merkle root computation (`Block._calculate_merkle_root`)
equals the spec's reference definition: the hash of the empty byte string on no
transactions, the transaction's own content hash on one transaction, and
otherwise the repeated duplicate-last-when-odd, combine-adjacent-pairs reduction
down to a single hash. -/
theorem merkle_root_eq_spec (H : HashFun) (txs : List Transaction) :
    calculate_merkle_root H txs = computeRootSpec H txs := by
  match txs with
  | [] => rfl
  | [t] => simp [calculate_merkle_root, computeRootSpec, merkleLoop, merkleRounds]
  | t₁ :: t₂ :: rest =>
    have h1 : computeRootSpec H (t₁ :: t₂ :: rest)
        = (specRounds H (t₁ :: t₂ :: rest).length
            ((t₁ :: t₂ :: rest).map (Transaction.get_hash H))).headD "" := by
      simp [computeRootSpec]
    show (if t₁ :: t₂ :: rest = [] then H (.str "")
      else (merkleLoop H ((t₁ :: t₂ :: rest).map (Transaction.get_hash H))).headD "") = _
    rw [if_neg (by simp), h1]
    unfold merkleLoop
    rw [merkleRounds_eq_specRounds, List.length_map]

/-! Validity machinery: pointwise characterization of `is_chain_valid`. -/

theorem checkBlock_iff (H : HashFun) (d : Nat) (prev cur : Block) :
    checkBlock H d prev cur = true ↔
      (cur.hash = some (cur.calculate_hash H) ∧
       some cur.previous_hash = prev.hash ∧
       leadingZeros d (cur.hash.getD "") = true) := by
  simp [checkBlock, Bool.and_eq_true, decide_eq_true_eq, and_assoc]

theorem validFrom_iff (H : HashFun) (d : Nat) : ∀ (rest : List Block) (prev : Block),
    validFrom H d prev rest = true ↔
      ∀ i, i < rest.length →
        checkBlock H d ((prev :: rest).getD i dummyBlock) (rest.getD i dummyBlock) = true
  | [], prev => by simp [validFrom]
  | cur :: rest, prev => by
    show (checkBlock H d prev cur && validFrom H d cur rest) = true ↔ _
    rw [Bool.and_eq_true, validFrom_iff H d rest cur]
    constructor
    · rintro ⟨hc, hrest⟩ i hi
      cases i with
      | zero => simpa using hc
      | succ j =>
        have hj : j < rest.length := by simpa using hi
        simpa using hrest j hj
    · intro hall
      refine ⟨by simpa using hall 0 (by simp), ?_⟩
      intro j hj
      have := hall (j + 1) (by simpa using Nat.succ_lt_succ hj)
      simpa using this

theorem is_chain_valid_nil (H : HashFun) (bc : Blockchain) (h : bc.chain = []) :
    bc.is_chain_valid H = true := by
  unfold Blockchain.is_chain_valid
  rw [h]

theorem is_chain_valid_cons (H : HashFun) (bc : Blockchain) (b : Block)
    (rest : List Block) (h : bc.chain = b :: rest) :
    bc.is_chain_valid H = validFrom H bc.difficulty b rest := by
  unfold Blockchain.is_chain_valid
  rw [h]

theorem chain_valid_iff (H : HashFun) (bc : Blockchain) :
    bc.is_chain_valid H = true ↔
      ∀ i, 1 ≤ i → i < bc.chain.length →
        checkBlock H bc.difficulty (bc.chain.getD (i - 1) dummyBlock)
          (bc.chain.getD i dummyBlock) = true := by
  rcases hch : bc.chain with _ | ⟨b, rest⟩
  · rw [is_chain_valid_nil H bc hch]
    simp [hch]
  · rw [is_chain_valid_cons H bc b rest hch, validFrom_iff]
    constructor
    · intro h i h1 h2
      obtain ⟨j, rfl⟩ : ∃ j, i = j + 1 := ⟨i - 1, by omega⟩
      have hj : j < rest.length := by
        simp only [List.length_cons] at h2
        omega
      simpa using h j hj
    · intro h j hj
      have := h (j + 1) (by omega) (by simp only [List.length_cons]; omega)
      simpa using this

theorem validFrom_append (H : HashFun) (d : Nat) :
    ∀ (rest : List Block) (prev b : Block),
    validFrom H d prev (rest ++ [b])
      = (validFrom H d prev rest
          && checkBlock H d ((prev :: rest).getLastD dummyBlock) b)
  | [], prev, b => by simp [validFrom]
  | cur :: rest, prev, b => by
    show (checkBlock H d prev cur && validFrom H d cur (rest ++ [b])) = _
    rw [validFrom_append H d rest cur b]
    show _ = ((checkBlock H d prev cur && validFrom H d cur rest) && _)
    have hlast : (prev :: cur :: rest).getLastD dummyBlock
        = (cur :: rest).getLastD dummyBlock := by
      rw [List.getLastD_cons]
      exact getLastD_irrel _ prev dummyBlock (by simp)
    rw [hlast, Bool.and_assoc]

/-- C2: `is_chain_valid` returns true iff every block at index `1 ≤ i < length`
passes all three checks — its stored hash equals its freshly recomputed hash,
its previous-hash field equals block `i-1`'s stored hash, and its stored hash
begins with `difficulty` zero hex digits; no check of any kind applies to
block 0. -/
theorem is_chain_valid_characterization (H : HashFun) (bc : Blockchain) :
    bc.is_chain_valid H = true ↔
      ∀ i, 1 ≤ i → i < bc.chain.length →
        ((bc.chain.getD i dummyBlock).hash
            = some ((bc.chain.getD i dummyBlock).calculate_hash H) ∧
         some (bc.chain.getD i dummyBlock).previous_hash
            = (bc.chain.getD (i - 1) dummyBlock).hash ∧
         leadingZeros bc.difficulty ((bc.chain.getD i dummyBlock).hash.getD "") = true) := by
  rw [chain_valid_iff]
  refine forall_congr' fun i => ?_
  refine imp_congr_right fun _ => imp_congr_right fun _ => ?_
  exact checkBlock_iff H bc.difficulty _ _

/-! State-update shape lemmas and the reachability invariant behind C1. -/

theorem add_transaction_shape (H : HashFun) (sign : String → String) (ts : String)
    (bc : Blockchain) (s r : String) (a : Int) :
    ∃ p, (bc.add_transaction H sign ts s r a).2
      = { bc with pending_transactions := p } := by
  unfold Blockchain.add_transaction
  split
  · exact ⟨bc.pending_transactions, rfl⟩
  · exact ⟨_, rfl⟩

theorem is_chain_valid_congr (H : HashFun) (bc bc' : Blockchain)
    (h1 : bc'.chain = bc.chain) (h2 : bc'.difficulty = bc.difficulty) :
    bc'.is_chain_valid H = bc.is_chain_valid H := by
  unfold Blockchain.is_chain_valid
  rw [h1, h2]

theorem mineSpec_fields (H : HashFun) (d : Nat) (b b' : Block)
    (h : Block.mineSpec H d b b') :
    b'.index = b.index ∧ b'.transactions = b.transactions ∧
    b'.previous_hash = b.previous_hash ∧ b'.timestamp = b.timestamp ∧
    b'.merkle_root = b.merkle_root ∧
    b'.hash = some (b'.calculate_hash H) ∧
    leadingZeros d (b'.calculate_hash H) = true := by
  obtain ⟨n, _, rfl, hok, _⟩ := h
  exact ⟨rfl, rfl, rfl, rfl, rfl, rfl, hok⟩

theorem mine_pending_result (H : HashFun) (bc : Blockchain) (miner rts : String)
    (b : Block) (h : bc.pending_transactions ≠ []) :
    bc.mine_pending_transactions H miner rts b
      = (some b,
          { bc with chain := bc.chain ++ [b],
                    pending_transactions :=
                      [rewardTransaction H miner bc.mining_reward rts] }) := by
  unfold Blockchain.mine_pending_transactions
  rw [if_neg h]

theorem mine_pending_empty (H : HashFun) (bc : Blockchain) (miner rts : String)
    (b : Block) (h : bc.pending_transactions = []) :
    bc.mine_pending_transactions H miner rts b = (none, bc) := by
  unfold Blockchain.mine_pending_transactions
  rw [if_pos h]

theorem reachable_good (H : HashFun) (sign : String → String) (bc : Blockchain)
    (h : Reachable H sign bc) :
    bc.is_chain_valid H = true ∧ bc.chain ≠ [] ∧
      bc.get_latest_block.hash.isSome = true := by
  induction h with
  | genesis d gts gb hm =>
    have hsh := (mineSpec_fields H d _ gb hm).2.2.2.2.2.1
    refine ⟨?_, by simp [Blockchain.start], ?_⟩
    · rw [is_chain_valid_cons H _ gb [] rfl]
      rfl
    · simp [Blockchain.start, Blockchain.get_latest_block, hsh]
  | step bc1 bc2 hr hs ih =>
    obtain ⟨hvalid, hne, hsome⟩ := ih
    cases hs with
    | submit ts s r a =>
      obtain ⟨p, hp⟩ := add_transaction_shape H sign ts bc1 s r a
      rw [hp]
      refine ⟨?_, hne, hsome⟩
      exact (is_chain_valid_congr H bc1 _ rfl rfl).trans hvalid
    | mineEmpty miner rts b hpe =>
      rw [mine_pending_empty H bc1 miner rts b hpe]
      exact ⟨hvalid, hne, hsome⟩
    | mine miner bts rts b hpne hm =>
      obtain ⟨f1, f2, f3, f4, f5, f6, f7⟩ :=
        mineSpec_fields H bc1.difficulty _ b hm
      rw [mine_pending_result H bc1 miner rts b hpne]
      obtain ⟨c, rest, hch⟩ : ∃ c rest, bc1.chain = c :: rest := by
        rcases hc : bc1.chain with _ | ⟨c, rest⟩
        · exact absurd hc hne
        · exact ⟨_, _, rfl⟩
      obtain ⟨hv, hvs⟩ := Option.isSome_iff_exists.mp hsome
      have hlatest : (c :: rest).getLastD dummyBlock = bc1.get_latest_block := by
        rw [Blockchain.get_latest_block, hch]
      refine ⟨?_, by simp, ?_⟩
      · rw [is_chain_valid_cons H _ c (rest ++ [b]) (by simp [hch])]
        show validFrom H bc1.difficulty c (rest ++ [b]) = true
        rw [validFrom_append, Bool.and_eq_true]
        constructor
        · rw [← is_chain_valid_cons H bc1 c rest hch]
          exact hvalid
        · apply (checkBlock_iff H _ _ _).mpr
          refine ⟨f6, ?_, ?_⟩
          · rw [f3, hlatest, hvs]
            show some ((bc1.get_latest_block.hash).getD "") = some hv
            rw [hvs]
            rfl
          · rw [f6]
            exact f7
      · show ((bc1.chain ++ [b]).getLastD dummyBlock).hash.isSome = true
        rw [List.getLastD_concat]
        simp [f6]

/-- C1: after constructing a fresh ledger (genesis block mined at the configured
difficulty) and applying any finite sequence of `add_transaction` and
`mine_pending_transactions` calls, `is_chain_valid` returns true. -/
theorem chain_always_valid (H : HashFun) (sign : String → String) (bc : Blockchain)
    (h : Reachable H sign bc) : bc.is_chain_valid H = true :=
  (reachable_good H sign bc h).1

/-- Witness for C1 at a concrete freshly constructed difficulty-0 ledger. -/
theorem chain_always_valid_witness : bcZ.is_chain_valid trivialHash = true :=
  chain_always_valid trivialHash trivialSign bcZ
    (Reachable.genesis 0 "t0" gZ
      (mineSpec_zero trivialHash (genesisBlock trivialHash "t0")))

/-- C3: `mine_pending_transactions` returns `None` and leaves the state
untouched exactly on an empty pool; otherwise the mined block (any block
satisfying the mining-loop result relation on the assembled block) has index
equal to the chain length, carries the full pending snapshot, links to the
chain tail's stored hash, meets the configured difficulty, is appended to the
chain, the pool is replaced by the single reward transaction from "System" to
the miner over the fixed mining reward, and the mined block is returned. -/
theorem mine_pending_spec (H : HashFun) (bc : Blockchain) (miner bts rts : String)
    (b : Block) :
    (bc.pending_transactions = [] →
      bc.mine_pending_transactions H miner rts b = (none, bc)) ∧
    (bc.pending_transactions ≠ [] →
      Block.mineSpec H bc.difficulty (bc.assembleBlock H bts) b →
      (bc.mine_pending_transactions H miner rts b).1 = some b ∧
      (bc.mine_pending_transactions H miner rts b).2.chain = bc.chain ++ [b] ∧
      b.index = bc.chain.length ∧
      b.transactions = bc.pending_transactions ∧
      b.previous_hash = bc.get_latest_block.hash.getD "" ∧
      b.hash = some (b.calculate_hash H) ∧
      leadingZeros bc.difficulty (b.hash.getD "") = true ∧
      (bc.mine_pending_transactions H miner rts b).2.pending_transactions
        = [rewardTransaction H miner bc.mining_reward rts] ∧
      (rewardTransaction H miner bc.mining_reward rts).sender = "System" ∧
      (rewardTransaction H miner bc.mining_reward rts).recipient = miner ∧
      (rewardTransaction H miner bc.mining_reward rts).amount = bc.mining_reward) := by
  constructor
  · exact fun h => mine_pending_empty H bc miner rts b h
  · intro hne hm
    obtain ⟨f1, f2, f3, f4, f5, f6, f7⟩ := mineSpec_fields H bc.difficulty _ b hm
    rw [mine_pending_result H bc miner rts b hne]
    refine ⟨rfl, rfl, f1, f2, f3, f6, ?_, rfl, rfl, rfl, rfl⟩
    rw [f6]
    exact f7

/-- Witness for C3 at the concrete one-pending-transaction ledger `bcP`. -/
theorem mine_pending_spec_witness :
    (bcP.mine_pending_transactions trivialHash "miner" "t3" bM1).1 = some bM1 ∧
    bM1.index = bcP.chain.length ∧
    bM1.transactions = bcP.pending_transactions :=
  have h := (mine_pending_spec trivialHash bcP "miner" "t2" "t3" bM1).2
    (by simp [bcP]) (mineSpec_zero trivialHash (bcP.assembleBlock trivialHash "t2"))
  ⟨h.1, h.2.2.1, h.2.2.2.1⟩

/-- C7: `add_transaction` fails (returns the Python `False`) exactly when the
sender is not the reward-issuer sentinel "System" and the sender's balance is
below the amount; on that failure the whole state — pending pool and chain
included — is returned unchanged. -/
theorem add_transaction_insufficient (H : HashFun) (sign : String → String)
    (ts : String) (bc : Blockchain) (s r : String) (a : Int) :
    ((bc.add_transaction H sign ts s r a).1 = false ↔
      (s ≠ "System" ∧ bc.get_balance s < a)) ∧
    ((bc.add_transaction H sign ts s r a).1 = false →
      (bc.add_transaction H sign ts s r a).2 = bc) := by
  unfold Blockchain.add_transaction
  split
  · next hc => exact ⟨by simp [hc], fun _ => rfl⟩
  · next hc => exact ⟨by simp [hc], by simp⟩

/-- Witness for C7: a transfer exceeding the sender's zero balance on the fresh
fixture ledger is rejected with the state unchanged. -/
theorem add_transaction_insufficient_witness :
    (bcZ.add_transaction trivialHash trivialSign "t9" "A" "B" 5).1 = false ∧
    (bcZ.add_transaction trivialHash trivialSign "t9" "A" "B" 5).2 = bcZ := by
  have h := add_transaction_insufficient trivialHash trivialSign "t9" bcZ "A" "B" 5
  have hf : (bcZ.add_transaction trivialHash trivialSign "t9" "A" "B" 5).1 = false :=
    h.1.mpr ⟨by decide, by decide⟩
  exact ⟨hf, h.2 hf⟩

/-! Balance-fold lemmas for C4. -/

theorem foldl_txApply_chain (a : String) : ∀ (bs : List Block) (init : Int),
    bs.foldl (fun acc blk => blk.transactions.foldl (txApply a) acc) init
      = ((bs.map Block.transactions).flatten).foldl (txApply a) init
  | [], _ => rfl
  | blk :: bs, init => by
    simp only [List.foldl_cons, List.map_cons, List.flatten_cons, List.foldl_append]
    exact foldl_txApply_chain a bs _

theorem txApply_eq_specDelta (a : String) : txApply a = specDelta a := by
  funext acc t
  unfold txApply specDelta
  by_cases hr : t.recipient = a <;> by_cases hs : t.sender = a <;> simp [hr, hs]

/-- C4: `get_balance` equals the spec's fold over every transaction of every
chained block followed by every pending transaction, starting from 0, crediting
the address as recipient and debiting it as sender (both applying when it is
both). -/
theorem get_balance_eq_spec_fold (bc : Blockchain) (a : String) :
    bc.get_balance a = bc.allTransactions.foldl (specDelta a) 0 := by
  unfold Blockchain.get_balance Blockchain.allTransactions
  rw [foldl_txApply_chain, ← List.foldl_append, txApply_eq_specDelta]

/-- C6: the mining loop of `mine_block(d)` terminates exactly by reaching a
nonce at which the exit condition holds: whenever some nonce at or beyond the
block's current one passes the difficulty test, a loop result exists; on any
termination the stored hash equals the freshly recomputed hash and its first
`d` hex characters are all zeros; and for difficulty 0 the loop exits on the
very first attempt leaving the nonce unchanged — nonce 0 for a freshly
assembled block, whose nonce always starts at 0. -/
theorem mine_block_spec (H : HashFun) (d : Nat) (b : Block) :
    ((∃ n, b.nonce ≤ n ∧
        leadingZeros d (Block.calculate_hash H { b with nonce := n }) = true) →
      ∃ b', Block.mineSpec H d b b') ∧
    (∀ b', Block.mineSpec H d b b' →
      b'.hash = some (b'.calculate_hash H) ∧
      leadingZeros d (b'.hash.getD "") = true) ∧
    (Block.mineSpec H 0 b (Block.setHash H b) ∧
      ∀ b', Block.mineSpec H 0 b b' → b'.nonce = b.nonce) ∧
    (∀ i txs ph ts, (Block.init H i txs ph ts).nonce = 0) := by
  refine ⟨?_, ?_, ⟨mineSpec_zero H b, ?_⟩, fun _ _ _ _ => rfl⟩
  · rintro ⟨n, hn, hok⟩
    have hex : ∃ k, leadingZeros d
        (Block.calculate_hash H { b with nonce := b.nonce + k }) = true := by
      refine ⟨n - b.nonce, ?_⟩
      have heq : b.nonce + (n - b.nonce) = n := by omega
      rw [heq]
      exact hok
    refine ⟨Block.setHash H { b with nonce := b.nonce + Nat.find hex }, ?_⟩
    refine ⟨b.nonce + Nat.find hex, by omega, rfl, Nat.find_spec hex, ?_⟩
    intro m h1 h2
    have hmin := Nat.find_min hex (m := m - b.nonce) (by omega)
    have hm : b.nonce + (m - b.nonce) = m := by omega
    rw [hm] at hmin
    simpa using hmin
  · intro b' h
    have hf := mineSpec_fields H d b b' h
    refine ⟨hf.2.2.2.2.2.1, ?_⟩
    rw [hf.2.2.2.2.2.1]
    exact hf.2.2.2.2.2.2
  · rintro b' ⟨n, hle, rfl, hok, hmin⟩
    show n = b.nonce
    by_contra hne
    have hlt : b.nonce < n := by omega
    have hcontra := hmin b.nonce le_rfl hlt
    simp [leadingZeros_zero] at hcontra

/-- Witness for C6: difficulty-0 mining of the fixture genesis block
terminates. -/
theorem mine_block_spec_witness :
    ∃ b', Block.mineSpec trivialHash 0 (genesisBlock trivialHash "t0") b' :=
  (mine_block_spec trivialHash 0 (genesisBlock trivialHash "t0")).1
    ⟨(genesisBlock trivialHash "t0").nonce, le_rfl, leadingZeros_zero _⟩

/-! Indexed-list helpers shared by the tampering and nonce-duplication proofs. -/

theorem getD_set_self {α : Type} (l : List α) (i : Nat) (x d : α)
    (h : i < l.length) : (l.set i x).getD i d = x := by
  simp [List.getD_eq_getElem?_getD, List.getElem?_set_self',
    List.getElem?_eq_getElem, h]

theorem getD_append_left {α : Type} (l₁ l₂ : List α) (n : Nat) (d : α)
    (h : n < l₁.length) : (l₁ ++ l₂).getD n d = l₁.getD n d := by
  simp [List.getD_eq_getElem?_getD, List.getElem?_append_left h]

theorem getD_append_offset {α : Type} (l₁ l₂ : List α) (n : Nat) (d : α) :
    (l₁ ++ l₂).getD (l₁.length + n) d = l₂.getD n d := by
  simp [List.getD_eq_getElem?_getD,
    List.getElem?_append_right (by omega : l₁.length ≤ l₁.length + n)]

theorem mem_exists_getD {α : Type} (l : List α) (x d : α) (h : x ∈ l) :
    ∃ k, k < l.length ∧ l.getD k d = x := by
  obtain ⟨i, hi, rfl⟩ := List.mem_iff_getElem.mp h
  exact ⟨i, hi, by simp [List.getD_eq_getElem?_getD, List.getElem?_eq_getElem hi]⟩

/-- C8 (amended): tampering with a transaction amount inside an already-mined
block is detected for every block the validation loop examines, i.e. every index
`i ≥ 1`, provided the hash is collision-free: changing transaction `j` of block
`i` of a valid chain to a different amount makes `is_chain_valid` return false.
(Block 0 is never examined, so the original claim fails there — see the
counterexample.) -/
theorem tamper_detected_after_genesis (H : HashFun) (bc : Blockchain) (i j : Nat)
    (a : Int) (hinj : Function.Injective H)
    (hvalid : bc.is_chain_valid H = true)
    (h1 : 1 ≤ i) (h2 : i < bc.chain.length)
    (hj : j < (bc.chain.getD i dummyBlock).transactions.length)
    (hne : a ≠ ((bc.chain.getD i dummyBlock).transactions.getD j dummyTransaction).amount) :
    (bc.tamperAmount i j a).is_chain_valid H = false := by
  apply Bool.eq_false_iff.mpr
  intro htrue
  have hlen : (bc.tamperAmount i j a).chain.length = bc.chain.length := by
    simp [Blockchain.tamperAmount]
  have hchar := (chain_valid_iff H _).mp htrue i h1 (by rw [hlen]; exact h2)
  have hgetD : (bc.tamperAmount i j a).chain.getD i dummyBlock
      = { bc.chain.getD i dummyBlock with
          transactions := (bc.chain.getD i dummyBlock).transactions.set j
            { (bc.chain.getD i dummyBlock).transactions.getD j dummyTransaction with
                amount := a } } := by
    exact getD_set_self _ i _ _ h2
  have hnew := ((checkBlock_iff H _ _ _).mp hchar).1
  rw [hgetD] at hnew
  have horig := ((checkBlock_iff H bc.difficulty _ _).mp
    ((chain_valid_iff H bc).mp hvalid i h1 h2)).1
  have hsome2 : some (Block.calculate_hash H (bc.chain.getD i dummyBlock))
      = some (Block.calculate_hash H
          { bc.chain.getD i dummyBlock with
            transactions := (bc.chain.getD i dummyBlock).transactions.set j
              { (bc.chain.getD i dummyBlock).transactions.getD j dummyTransaction with
                  amount := a } }) := horig.symm.trans hnew
  have hcalc := Option.some.inj hsome2
  have hdata := hinj hcalc
  injection hdata with hbd
  have htxs : (bc.chain.getD i dummyBlock).transactions
      = (bc.chain.getD i dummyBlock).transactions.set j
        { (bc.chain.getD i dummyBlock).transactions.getD j dummyTransaction with
            amount := a } :=
    congrArg BlockData.transactions hbd
  have hT := getD_set_self (bc.chain.getD i dummyBlock).transactions j
    { (bc.chain.getD i dummyBlock).transactions.getD j dummyTransaction with
        amount := a } dummyTransaction hj
  rw [← htxs] at hT
  have hTa : ((bc.chain.getD i dummyBlock).transactions.getD j dummyTransaction).amount
      = a := congrArg Transaction.amount hT
  exact hne hTa.symm

/-- C8 counterexample: on the concrete valid single-block chain `bcZ`, changing
the genesis transaction's amount from 0 to 1 outside the API leaves
`is_chain_valid` true — the validation loop never examines block 0, so the
claim's "including the genesis block at index 0" fails. -/
theorem tamper_genesis_undetected :
    bcZ.is_chain_valid trivialHash = true ∧
    (1 : Int) ≠ ((bcZ.chain.getD 0 dummyBlock).transactions.getD 0 dummyTransaction).amount ∧
    (bcZ.tamperAmount 0 0 1).is_chain_valid trivialHash = true := by
  refine ⟨rfl, by decide, rfl⟩

/-! Injectivity of the concrete hash model `injHash`. -/

theorem charToNat_injective : Function.Injective Char.toNat :=
  fun _ _ h => Char.eq_of_val_eq (UInt32.ext h)

theorem strNat_injective : Function.Injective strNat := by
  intro s t h
  have h1 := Encodable.encode_injective h
  have h2 := List.map_injective_iff.mpr charToNat_injective h1
  exact congrArg String.mk h2

theorem txNat_injective : Function.Injective txNat := by
  intro t u h
  have h1 := Encodable.encode_injective h
  simp only [txNat, Prod.mk.injEq] at h1
  obtain ⟨hs, hr, ha, hts, hsig, hn⟩ := h1
  cases t
  cases u
  rw [Transaction.mk.injEq]
  exact ⟨strNat_injective hs, strNat_injective hr, ha, strNat_injective hts,
    Option.map_injective strNat_injective hsig, strNat_injective hn⟩

theorem blkNat_injective : Function.Injective blkNat := by
  intro b c h
  have h1 := Encodable.encode_injective h
  simp only [blkNat, Prod.mk.injEq] at h1
  obtain ⟨hi, hts, htx, hph, hmr, hn⟩ := h1
  cases b
  cases c
  rw [BlockData.mk.injEq]
  exact ⟨hi, strNat_injective hts, List.map_injective_iff.mpr txNat_injective htx,
    strNat_injective hph, strNat_injective hmr, hn⟩

theorem hashCode_injective : Function.Injective hashCode := by
  intro x y h
  cases x <;> cases y <;> simp [hashCode] at h
  · exact congrArg HashInput.str (strNat_injective h)
  · exact congrArg HashInput.tx (txNat_injective h)
  · exact congrArg HashInput.blk (blkNat_injective h)

theorem injHash_injective : Function.Injective injHash := by
  intro x y h
  have h2 : List.replicate (Encodable.encode (hashCode x)) 'a'
      = List.replicate (Encodable.encode (hashCode y)) 'a' :=
    congrArg String.data h
  have hlen := congrArg List.length h2
  simp only [List.length_replicate] at hlen
  exact hashCode_injective (Encodable.encode_injective hlen)

/-- Witness for C8's amended theorem: on the concrete two-block valid chain
`bcW` under the injective hash model, tampering transaction 0 of block 1 to a
different amount flips `is_chain_valid` to false. -/
theorem tamper_detected_witness :
    Function.Injective injHash ∧
    bcW.is_chain_valid injHash = true ∧
    (bcW.tamperAmount 1 0 1).is_chain_valid injHash = false := by
  have hval : bcW.is_chain_valid injHash = true := by
    rw [is_chain_valid_cons injHash bcW bW0 [bW1] rfl]
    show (checkBlock injHash bcW.difficulty bW0 bW1
      && validFrom injHash bcW.difficulty bW1 []) = true
    rw [Bool.and_eq_true]
    exact ⟨(checkBlock_iff _ _ _ _).mpr ⟨rfl, rfl, leadingZeros_zero _⟩, rfl⟩
  refine ⟨injHash_injective, hval, ?_⟩
  exact tamper_detected_after_genesis injHash bcW 1 0 1 injHash_injective hval
    (by decide) (by decide) (by decide) (by decide)

/-- C9 counterexample: neither `Transaction.__init__` nor `add_transaction`
validates the amount — on the fresh fixture ledger a transfer of −5 from a
zero-balance sender is accepted (the guard `0 < -5` does not fire), so a
negative-amount transaction is both constructed and admitted to the pool, and
no `InvalidAmount` failure occurs. -/
theorem negative_amount_admitted :
    (bcZ.add_transaction trivialHash trivialSign "t7" "A" "B" (-5)).1 = true ∧
    ((bcZ.add_transaction trivialHash trivialSign "t7" "A" "B"
        (-5)).2.pending_transactions.getD 0 dummyTransaction).amount = -5 ∧
    ((bcZ.add_transaction trivialHash trivialSign "t7" "A" "B"
        (-5)).2.pending_transactions.getD 0 dummyTransaction).amount < 0 := by
  refine ⟨?_, ?_, ?_⟩ <;> decide

/-- C9 (amended): the code performs no amount validation anywhere — transaction
construction checks nothing, and `add_transaction` admits any amount, negative
ones included, whenever the sender is the "System" sentinel or the sender's
balance is not below the amount; the admitted pool entry carries exactly the
requested (negative) amount. -/
theorem no_amount_validation (H : HashFun) (sign : String → String) (ts : String)
    (bc : Blockchain) (s r : String) (a : Int)
    (hneg : a < 0)
    (hguard : s = "System" ∨ ¬ bc.get_balance s < a) :
    (bc.add_transaction H sign ts s r a).1 = true ∧
    ∃ t, (bc.add_transaction H sign ts s r a).2.pending_transactions
        = bc.pending_transactions ++ [t] ∧ t.amount = a := by
  have hcond : ¬ (s ≠ "System" ∧ bc.get_balance s < a) := by
    rcases hguard with h | h
    · exact fun hc => hc.1 h
    · exact fun hc => h hc.2
  unfold Blockchain.add_transaction
  rw [if_neg hcond]
  refine ⟨rfl, ⟨_, rfl, ?_⟩⟩
  by_cases hw : s ∈ bc.wallets <;> simp [hw, Transaction.make]

/-- Witness for C9's amended theorem at a concrete negative-amount call. -/
theorem no_amount_validation_witness :
    (bcZ.add_transaction trivialHash trivialSign "t8" "C" "D" (-3)).1 = true ∧
    ∃ t, (bcZ.add_transaction trivialHash trivialSign "t8" "C" "D"
        (-3)).2.pending_transactions = bcZ.pending_transactions ++ [t] ∧
        t.amount = -3 :=
  no_amount_validation trivialHash trivialSign "t8" bcZ "C" "D" (-3) (by decide)
    (Or.inr (by decide))

/-! Reward-nonce bookkeeping for C10. -/

theorem add_transaction_pending_extends (H : HashFun) (sign : String → String)
    (ts : String) (bc : Blockchain) (s r : String) (a : Int) :
    ∃ p, (bc.add_transaction H sign ts s r a).2.pending_transactions
      = bc.pending_transactions ++ p := by
  unfold Blockchain.add_transaction
  split
  · exact ⟨[], by simp⟩
  · exact ⟨_, rfl⟩

theorem step_preserves_reward (H : HashFun) (sign : String → String)
    (bc bc' : Blockchain) (hs : Step H sign bc bc')
    (h : ∃ t ∈ bc.pending_transactions, t.nonce = "reward") :
    ∃ t ∈ bc'.pending_transactions, t.nonce = "reward" := by
  obtain ⟨t, ht, hn⟩ := h
  cases hs with
  | submit ts s r a =>
    obtain ⟨p, hp⟩ := add_transaction_pending_extends H sign ts bc s r a
    rw [hp]
    exact ⟨t, List.mem_append_left _ ht, hn⟩
  | mineEmpty miner rts b hpe =>
    rw [mine_pending_empty H bc miner rts b hpe]
    exact ⟨t, ht, hn⟩
  | mine miner bts rts b hpne hm =>
    rw [mine_pending_result H bc miner rts b hpne]
    exact ⟨rewardTransaction H miner bc.mining_reward rts, by simp, rfl⟩

theorem star_preserves_reward (H : HashFun) (sign : String → String)
    (bc bc' : Blockchain) (hstar : Relation.ReflTransGen (Step H sign) bc bc')
    (h : ∃ t ∈ bc.pending_transactions, t.nonce = "reward") :
    ∃ t ∈ bc'.pending_transactions, t.nonce = "reward" := by
  induction hstar with
  | refl => exact h
  | tail hst hstep ih => exact step_preserves_reward H sign _ _ hstep ih

theorem mineCall_reward (H : HashFun) (bc bc' : Blockchain) (h : MineCall H bc bc') :
    ∃ t ∈ bc'.pending_transactions, t.nonce = "reward" := by
  obtain ⟨miner, bts, rts, b, hpne, hm, rfl⟩ := h
  rw [mine_pending_result H bc miner rts b hpne]
  exact ⟨rewardTransaction H miner bc.mining_reward rts, by simp, rfl⟩

/-- C10: reward transactions minted by `mine_pending_transactions` always carry
the constant nonce "reward" and the genesis transaction the constant nonce
"genesis" — never a hash-derived one; consequently after any two successful
mine calls, with any other API calls in between, the ledger's transaction
sequence (chain then pool) holds identical nonces at two distinct positions. -/
theorem reward_nonce_constant (H : HashFun) (sign : String → String) :
    (∀ miner reward rts, (rewardTransaction H miner reward rts).nonce = "reward") ∧
    (∀ gts, (genesisTransaction H gts).nonce = "genesis") ∧
    (∀ bc1 bc2 bc3 bc4 : Blockchain,
      MineCall H bc1 bc2 →
      Relation.ReflTransGen (Step H sign) bc2 bc3 →
      MineCall H bc3 bc4 → DupNonce bc4) := by
  refine ⟨fun _ _ _ => rfl, fun _ => rfl, ?_⟩
  intro bc1 bc2 bc3 bc4 hm1 hstar hm2
  obtain ⟨t, ht, hn⟩ :=
    star_preserves_reward H sign bc2 bc3 hstar (mineCall_reward H bc1 bc2 hm1)
  obtain ⟨miner, bts, rts, b, hpne, hmspec, rfl⟩ := hm2
  have f2 : b.transactions = bc3.pending_transactions :=
    (mineSpec_fields H bc3.difficulty _ b hmspec).2.1
  obtain ⟨k, hk, hgetk⟩ := mem_exists_getD bc3.pending_transactions t dummyTransaction ht
  have hall : ((bc3.mine_pending_transactions H miner rts b).2).allTransactions
      = (bc3.chain.map Block.transactions).flatten
        ++ (bc3.pending_transactions
            ++ [rewardTransaction H miner bc3.mining_reward rts]) := by
    rw [mine_pending_result H bc3 miner rts b hpne]
    unfold Blockchain.allTransactions
    simp [List.map_append, List.flatten_append, f2, List.append_assoc]
  have hi : ((bc3.chain.map Block.transactions).flatten
      ++ (bc3.pending_transactions
          ++ [rewardTransaction H miner bc3.mining_reward rts])).getD
        ((bc3.chain.map Block.transactions).flatten.length + k) dummyTransaction
      = t := by
    rw [getD_append_offset, getD_append_left _ _ _ _ hk, hgetk]
  have hj : ((bc3.chain.map Block.transactions).flatten
      ++ (bc3.pending_transactions
          ++ [rewardTransaction H miner bc3.mining_reward rts])).getD
        ((bc3.chain.map Block.transactions).flatten.length
          + bc3.pending_transactions.length) dummyTransaction
      = rewardTransaction H miner bc3.mining_reward rts := by
    rw [getD_append_offset]
    exact (getD_append_offset bc3.pending_transactions _ 0 dummyTransaction).trans rfl
  refine ⟨(bc3.chain.map Block.transactions).flatten.length + k,
          (bc3.chain.map Block.transactions).flatten.length
            + bc3.pending_transactions.length, by omega, ?_, ?_⟩
  · rw [hall]
    simp only [List.length_append, List.length_cons, List.length_nil]
    omega
  · rw [hall, hi, hj, hn]
    rfl

/-- Witness for C10: two concrete consecutive mine calls on the fixture ledger
leave duplicate "reward" nonces in the ledger. -/
theorem reward_nonce_constant_witness : DupNonce bcM2 :=
  (reward_nonce_constant trivialHash trivialSign).2.2 bcP bcM1 bcM1 bcM2
    ⟨"miner", "t2", "t3", bM1, by decide, mineSpec_zero trivialHash _, rfl⟩
    Relation.ReflTransGen.refl
    ⟨"miner", "t4", "t5", bM2, by decide, mineSpec_zero trivialHash _, rfl⟩

end QuantumShield
